import Mathlib

/-!
Verification of the adaptive query scheduler of FlightTracker
(src/flight_tracker/gui.py).

Shallow embedding conventions, shared by all definitions below:

- Calendar dates ("YYYY-MM-DD" strings parsed with strptime in the source)
  are modelled as integer day numbers (type ℤ); the difference of two parsed
  dates in days is then plain integer subtraction, and adding a trip duration
  to a date (the helper named ret-date inside the batch proposer) is integer
  addition.  All dates appearing in the model are valid, so the
  early-return/except branches of the source that fire on unparsable date
  strings are unreachable in the model.
- Normalized bootstrap timestamps ("YYYY-MM-DD-HH", compared
  lexicographically as fixed-width strings in the source) are modelled as
  pairs (day : ℤ, hour : ℕ) compared lexicographically, which is exactly the
  order the string comparison realizes on well-formed timestamps.  The
  calendar day extracted by slicing the first ten characters is the first
  component.
- Python floats are modelled as exact rationals (ℚ).  The fixed fractions
  0.6, 0.3 and the archive gamma are such that the float roundings of the
  source never cross an integer boundary for the batch sizes involved, so
  the int(...) truncations agree with the rational model.
- Python dicts are modelled as association lists keyed with decidable
  equality; dict iteration order is insertion order, which the list order
  preserves; assignment replaces in place or appends, exactly as assocSet
  below does.  Arm-key strings "DEP|DEST|DD|RD" are modelled by the
  structured key Cand (the formatting is injective because the fields never
  contain the delimiter).
- The numpy weighted-ridge solve inside the additive-surrogate fit is an
  uninterpreted parameter (oracle) of the batch proposer: no claim below
  depends on the regression values, only on the surrounding control flow,
  and that control flow (the empty-archive early return) is modelled
  faithfully.  Likewise the normal posterior draws of the Thompson stage and
  the choices of random.Random are oracle parameters (a sample function and
  an index stream): the claims hold for every oracle, or are refuted for a
  concrete one.
-/

/-! ### Small helpers: Python int truncation, association lists -/

/-- Python int(x) truncation toward zero on an exact rational. -/
def pyTrunc (x : ℚ) : ℤ := if x < 0 then -(Rat.floor (-x)) else Rat.floor x

/-- Python int(x) for a value subsequently used as a count or slice bound
(negative values never reach such uses in the modelled paths). -/
def pyIntToNat (x : ℚ) : ℕ := (pyTrunc x).toNat

/-- Dict lookup on an association list (first matching key wins, as in a
Python dict, whose keys are unique). -/
def assocFind {κ ν : Type} [DecidableEq κ] : List (κ × ν) → κ → Option ν
  | [], _ => none
  | (k0, v0) :: rest, k => if k = k0 then some v0 else assocFind rest k

/-- Dict assignment on an association list: replace the first binding in
place, or append a new one, as a Python dict does. -/
def assocSet {κ ν : Type} [DecidableEq κ] : List (κ × ν) → κ → ν → List (κ × ν)
  | [], k, v => [(k, v)]
  | (k0, v0) :: rest, k, v => if k0 = k then (k, v) :: rest else (k0, v0) :: assocSet rest k v

theorem assocFind_assocSet_self {κ ν : Type} [DecidableEq κ] (l : List (κ × ν)) (k : κ) (v : ν) :
    assocFind (assocSet l k v) k = some v := by
  induction l with
  | nil => simp [assocSet, assocFind]
  | cons hd tl ih =>
    by_cases h : hd.1 = k
    · simp [assocSet, h, assocFind]
    · have h2 : k ≠ hd.1 := fun he => h he.symm
      simp [assocSet, h, assocFind, h2, ih]

theorem assocFind_assocSet_ne {κ ν : Type} [DecidableEq κ] (l : List (κ × ν)) (k k0 : κ) (v : ν)
    (h : k ≠ k0) : assocFind (assocSet l k0 v) k = assocFind l k := by
  induction l with
  | nil => simp [assocSet, assocFind, h]
  | cons hd tl ih =>
    by_cases h1 : hd.1 = k0
    · simp [assocSet, h1, assocFind, h]
    · simp [assocSet, h1, assocFind, ih]

theorem assocFind_mapVal {κ ν μ : Type} [DecidableEq κ] (f : ν → μ) (l : List (κ × ν)) (k : κ) :
    assocFind (l.map (fun kv => (kv.1, f kv.2))) k = (assocFind l k).map f := by
  induction l with
  | nil => simp [assocFind]
  | cons hd tl ih =>
    by_cases h : k = hd.1
    · simp [assocFind, h]
    · simp [assocFind, h, ih]

theorem mem_assocSet {κ ν : Type} [DecidableEq κ] (l : List (κ × ν)) (k : κ) (v : ν)
    (kv : κ × ν) (h : kv ∈ assocSet l k v) : kv = (k, v) ∨ kv ∈ l := by
  induction l with
  | nil => simp [assocSet] at h; simp [h]
  | cons hd tl ih =>
    by_cases h1 : hd.1 = k
    · simp [assocSet, h1] at h
      rcases h with h | h
      · left; simp [h]
      · right; simp [h]
    · simp [assocSet, h1] at h
      rcases h with h | h
      · right; simp [h]
      · rcases ih h with h2 | h2
        · left; exact h2
        · right; simp [h2]

theorem assocFind_eq_some_mem {κ ν : Type} [DecidableEq κ] (l : List (κ × ν)) (k : κ) (v : ν)
    (h : assocFind l k = some v) : (k, v) ∈ l := by
  induction l with
  | nil => simp [assocFind] at h
  | cons hd tl ih =>
    rcases hd with ⟨a, b⟩
    by_cases h1 : k = a
    · simp [assocFind, h1] at h
      simp [h1, h]
    · simp [assocFind, h1] at h
      simp [ih h]

/-! ### Data model: arms and the statistics archive -/

/-- One arm key: the (departure, destination, outbound date, return date)
tuple identifying a candidate itinerary.  The source uses the delimited
string DEP|DEST|DD|RD, whose formatting is injective on the fields. -/
structure Cand where
  dep : String
  dest : String
  dd : ℤ
  rd : ℤ
deriving DecidableEq, Repr

/-- Per-arm discounted statistics, one record of the stats mapping:
mu (discounted mean), var (discounted variance), n (discounted effective
count), last (calendar day of the most recent update). -/
structure ArmStats where
  mu : ℚ
  var : ℚ
  n : ℚ
  last : ℤ
deriving DecidableEq, Repr

/-- The persisted archive: decay factor gamma, the bootstrap watermark
last-bootstrap-ts (none models the empty-string default of the source), and
the per-arm statistics mapping. -/
structure Archive where
  gamma : ℚ
  lastBootTs : Option (ℤ × ℕ)
  stats : List (Cand × ArmStats)
deriving DecidableEq

def emptyArchive (gamma : ℚ) : Archive :=
  { gamma := gamma, lastBootTs := none, stats := [] }

/-! ### Archive decay and observation ingestion
(source: gui.py, methods archive-decay at lines 1783-1816 and
archive-add-observation at lines 1818-1843) -/

/-- Decay one statistics record toward the given day: if its last update
precedes today, scale mu, var and n by gamma to the power of the elapsed
days and stamp the record with today; otherwise leave it unchanged.  Records
in the model always carry a valid last day, so the branches of the source
that repair a missing last-date or drop a malformed entry are unreachable. -/
def decayEntry (gamma : ℚ) (today : ℤ) (s : ArmStats) : ArmStats :=
  let delta := today - s.last
  if delta ≤ 0 then s
  else
    let factor := gamma ^ delta.toNat
    { mu := s.mu * factor, var := s.var * factor, n := s.n * factor, last := today }

/-- Day-wise exponential forgetting over the whole stats mapping, mutating
each record in place (modelled as a value map over the association list). -/
def archiveDecay (arch : Archive) (today : ℤ) : Archive :=
  { arch with stats := arch.stats.map (fun kv => (kv.1, decayEntry arch.gamma today kv.2)) }

/-- The variance floor 1e-6 enforced by the update. -/
def varFloor : ℚ := 1 / 1000000

/-- Discounted online update for one observation: fetch the record (seeding
a new arm with mu = y, var = 1, n = 1), apply the decay pass for today, then
blend with EWMA step alpha = 1 - gamma and discount the count.  The record
fetched before the decay pass aliases the stored dict entry in the source,
so its fields are read after decay; the model reads them from the decayed
archive, which is the same thing. -/
def archiveAddObservation (arch : Archive) (key : Cand) (y : ℚ) (today : ℤ) : Archive :=
  let gamma := arch.gamma
  let arch1 := archiveDecay arch today
  let s := (assocFind arch1.stats key).getD { mu := y, var := 1, n := 1, last := today }
  let alpha := 1 - gamma
  let muNew := gamma * s.mu + alpha * y
  let varNew := gamma * s.var + alpha * (y - muNew) ^ 2
  let nNew := gamma * s.n + 1
  { arch1 with
    stats := assocSet arch1.stats key
      { mu := muNew, var := max varFloor varNew, n := nNew, last := today } }

/-! ### Operation sequences over the archive (for trace invariants) -/

/-- One archive mutation of the modelled core: a decay pass or an ingested
observation. -/
inductive ArchOp where
  | decayOp (today : ℤ)
  | obsOp (key : Cand) (y : ℚ) (today : ℤ)

def applyOp (a : Archive) : ArchOp → Archive
  | ArchOp.decayOp t => archiveDecay a t
  | ArchOp.obsOp k y t => archiveAddObservation a k y t

/-- The archive reached from the fresh empty archive by a finite sequence of
decay and ingestion calls. -/
def runOps (gamma : ℚ) (ops : List ArchOp) : Archive :=
  ops.foldl applyOp (emptyArchive gamma)

/-- The weight the update blends against: the stored count of the arm after
the decay pass, or the fresh-arm seed count 1 when the arm is new (this is
exactly the n-prev the source reads). -/
def preBlendWeight (a : Archive) (key : Cand) : ℚ :=
  ((assocFind a.stats key).getD { mu := 0, var := 1, n := 1, last := 0 }).n

/-- The stored weight of an arm (0 when absent; after an update the arm is
always present). -/
def armWeight (a : Archive) (key : Cand) : ℚ :=
  ((assocFind a.stats key).getD { mu := 0, var := 1, n := 0, last := 0 }).n

/-! ### Bootstrap from the historical record log
(source: gui.py, method archive-bootstrap-from-records, lines 2287-2379) -/

/-- Strict lexicographic order on normalized timestamps (day, hour): the
order realized by comparing the fixed-width strings YYYY-MM-DD-HH. -/
def tsLt (a b : ℤ × ℕ) : Prop := a.1 < b.1 ∨ (a.1 = b.1 ∧ a.2 < b.2)

/-- Reflexive lexicographic order on normalized timestamps. -/
def tsLe (a b : ℤ × ℕ) : Prop := a.1 < b.1 ∨ (a.1 = b.1 ∧ a.2 ≤ b.2)

instance : DecidableRel tsLt := fun a b => by unfold tsLt; infer_instance

instance : DecidableRel tsLe := fun a b => by unfold tsLe; infer_instance

theorem tsLe_refl (a : ℤ × ℕ) : tsLe a a := by unfold tsLe; omega

theorem tsLt_trans {a b c : ℤ × ℕ} (h1 : tsLt a b) (h2 : tsLt b c) : tsLt a c := by
  unfold tsLt at *; omega

theorem not_tsLt_of_tsLe {a b : ℤ × ℕ} (h : tsLe a b) : ¬ tsLt b a := by
  unfold tsLe tsLt at *; omega

/-- One eligible row assembled from a line of flight-records.jsonl: the
normalized timestamp (day, hour), the four itinerary fields and the price.
Lines the source skips while parsing (malformed JSON, missing fields,
unparsable timestamps) simply do not appear in the modelled list. -/
structure BootRecord where
  tsDay : ℤ
  tsHour : ℕ
  dep : String
  dest : String
  dd : ℤ
  rd : ℤ
  price : ℚ
deriving DecidableEq, Repr

def BootRecord.ts (r : BootRecord) : ℤ × ℕ := (r.tsDay, r.tsHour)

/-- The filter the source applies while collecting rows: strictly newer than
the stored watermark (an absent watermark, the empty-string default, lets
everything through) and a positive parsed price. -/
def eligibleRec (wm : Option (ℤ × ℕ)) (r : BootRecord) : Bool :=
  (match wm with
   | none => true
   | some t => decide (tsLt t r.ts)) && decide (0 < r.price)

theorem eligibleRec_none_iff (r : BootRecord) :
    eligibleRec none r = true ↔ 0 < r.price := by
  simp [eligibleRec]

theorem eligibleRec_some_iff (t : ℤ × ℕ) (r : BootRecord) :
    eligibleRec (some t) r = true ↔ tsLt t r.ts ∧ 0 < r.price := by
  simp [eligibleRec]

/-- Sort key of the row sort: ascending by normalized timestamp (the source
sorts the row tuples, whose first component is the timestamp; the sort is
stable, as is the stable insertion sort used here). -/
def recLe (a b : BootRecord) : Prop := tsLe a.ts b.ts

instance : DecidableRel recLe := fun a b => by unfold recLe; infer_instance

instance : IsTotal BootRecord recLe := ⟨by intro a b; unfold recLe tsLe; omega⟩

instance : IsTrans BootRecord recLe := ⟨by intro a b c h1 h2; unfold recLe tsLe at *; omega⟩

/-- The rows the bootstrap will replay, in file order. -/
def bootRows (arch : Archive) (records : List BootRecord) : List BootRecord :=
  records.filter (eligibleRec arch.lastBootTs)

/-- The replayed rows in replay (chronological) order. -/
def bootSorted (arch : Archive) (records : List BootRecord) : List BootRecord :=
  (bootRows arch records).insertionSort recLe

/-- Incremental bootstrap of the archive from the historical log: filter the
records against the watermark, return unchanged if nothing is eligible,
otherwise replay the eligible rows in chronological order through
archive-add-observation (using the calendar day of each timestamp as the
observation day) and advance the watermark to the timestamp of the last
replayed row. -/
def archiveBootstrap (arch : Archive) (records : List BootRecord) : Archive :=
  if bootRows arch records = [] then arch
  else
    let sorted := bootSorted arch records
    let arch1 := sorted.foldl
      (fun a r =>
        archiveAddObservation a { dep := r.dep, dest := r.dest, dd := r.dd, rd := r.rd }
          r.price r.tsDay) arch
    match sorted.getLast? with
    | some lastR => { arch1 with lastBootTs := some lastR.ts }
    | none => arch1

/-! ### Batch proposal
(source: gui.py, methods fit-additive-surrogate at lines 1845-1919 and
propose-batch-ts-additive at lines 1921-2053) -/

/-- Ordering of character lists by code point, the comparison Python applies
to strings inside tuple comparisons. -/
def charListLt : List Char → List Char → Bool
  | [], [] => false
  | [], _ :: _ => true
  | _ :: _, [] => false
  | a :: as, b :: bs => if a < b then true else if b < a then false else charListLt as bs

def strLtb (a b : String) : Bool := charListLt a.data b.data

/-- Strict lexicographic order on candidate tuples, the order Python uses to
break score ties between heap entries (tuple comparison field by field). -/
def candLt (a b : Cand) : Prop :=
  if a.dep = b.dep then
    if a.dest = b.dest then
      if a.dd = b.dd then a.rd < b.rd
      else a.dd < b.dd
    else strLtb a.dest b.dest = true
  else strLtb a.dep b.dep = true

instance : DecidableRel candLt := fun a b => by unfold candLt; infer_instance

/-- The total order in which the min-heap of the beam yields (score,
candidate) pairs: by score, then by candidate tuple.  Popping every element
of a heap of distinct entries yields exactly the sorted order, so the heap
of the source is modelled as a stable sort by this relation. -/
def pairLe (a b : ℚ × Cand) : Prop := a.1 < b.1 ∨ (a.1 = b.1 ∧ (candLt a.2 b.2 ∨ a.2 = b.2))

instance : DecidableRel pairLe := fun a b => by unfold pairLe; infer_instance

/-- Sort key of the Thompson stage: ascending sampled score only (the source
sorts with key t[0], a stable sort). -/
def scoreLe {α : Type} (a b : ℚ × α) : Prop := a.1 ≤ b.1

instance {α : Type} : DecidableRel (@scoreLe α) := fun a b => by unfold scoreLe; infer_instance

/-- The three fitted factor-score maps (departure, destination, date). -/
abbrev SurFit : Type := List (String × ℚ) × List (String × ℚ) × List (ℤ × ℚ)

/-- Additive-surrogate fit: an empty archive yields empty maps (the early
return of the source); otherwise the numpy weighted ridge solve runs, which
the model keeps as the uninterpreted parameter oracle.  The second early
return of the source (every stored key malformed) is unreachable because
modelled keys are structured. -/
def fitAdditiveSurrogate (oracle : Archive → SurFit) (arch : Archive) : SurFit :=
  if arch.stats = [] then ([], [], []) else oracle arch

/-- Factor ranking for the beam: with no learned scores, fall back to the
leading k entries of the raw pool; otherwise sort the pool ascending by
looked-up score (0 when absent) and keep the first k. -/
def topk {α : Type} [DecidableEq α] (dct : List (α × ℚ)) (k : ℕ) (pool : List α) :
    List α :=
  if dct = [] then pool.take k
  else ((((pool.map (fun x => ((assocFind dct x).getD 0, x))).insertionSort
    scoreLe).map Prod.snd).take k)

/-- Return date of a candidate: outbound date plus duration (the helper
named ret-date in the source; the except branch needs an unparsable date and
is unreachable in the model). -/
def retDate (dd : ℤ) (dur : ℤ) : ℤ := dd + dur

/-- The representative durations of the beam: with no durations available a
literal zero is used; otherwise the minimum and the middle element of the
ascending deduplicated durations (only the minimum when it is alone). -/
def durListOf (durations : List ℤ) : List ℤ :=
  if durations = [] then [0]
  else
    let ds := (durations.dedup).insertionSort (fun a b : ℤ => a ≤ b)
    if 1 < ds.length then [ds.getD 0 0, ds.getD (ds.length / 2) 0] else [ds.getD 0 0]

/-- All scored beam candidates, in enumeration order: the cross product of
the ranked factors and the representative durations, skipping any candidate
whose key is already archived, each scored by the sum of its three factor
scores. -/
def beamList (al be : List (String × ℚ)) (ga : List (ℤ × ℚ)) (stats : List (Cand × ArmStats))
    (topDep topDest : List String) (topDates : List ℤ) (durations : List ℤ) :
    List (ℚ × Cand) :=
  topDep.flatMap (fun d =>
    topDest.flatMap (fun b =>
      topDates.flatMap (fun dd =>
        (durListOf durations).filterMap (fun dur =>
          let cand : Cand := { dep := d, dest := b, dd := dd, rd := retDate dd dur }
          if (assocFind stats cand).isSome then none
          else some ((assocFind al d).getD 0 + (assocFind be b).getD 0 +
            (assocFind ga dd).getD 0, cand)))))

/-- Thompson stage: draw one posterior sample per archived arm (the normal
draw is the oracle tsSample), sort ascending by sample and keep the first
int(q * 0.6) arms. -/
def tsStage (tsSample : Cand → ℚ) (arch : Archive) (q : ℕ) : List Cand :=
  let cands := arch.stats.map (fun kv => (tsSample kv.1, kv.1))
  (((cands.insertionSort scoreLe).map Prod.snd).take (pyIntToNat ((q : ℚ) * (6 / 10))))

/-- Surrogate stage: fit the additive surrogate, rank the factor pools, beam
the cross product and keep the int(q * 0.3) lowest-scoring unseen
candidates. -/
def surStage (oracle : Archive → SurFit) (arch : Archive) (depsPool destsPool : List String)
    (datesPool durations : List ℤ) (q beamK : ℕ) : List Cand :=
  let fit := fitAdditiveSurrogate oracle arch
  let topDep := topk fit.1 beamK depsPool
  let topDest := topk fit.2.1 beamK destsPool
  let topDates := topk fit.2.2 beamK datesPool
  let beam := beamList fit.1 fit.2.1 fit.2.2 arch.stats topDep topDest topDates durations
  (((beam.insertionSort pairLe).map Prod.snd).take (pyIntToNat ((q : ℚ) * (3 / 10))))

/-- The random floor loop: while fewer than qRand candidates have been added
and fewer than qRand * 20 tries used, draw one candidate from the raw pools
(the stream rng supplies the choice indices, four per try) and append it
unless already picked; break if any pool is empty.  Returns the grown picked
list, the number of additions and the number of tries used. -/
def randDraw (dp ds : List String) (da du : List ℤ) (rng : ℕ → ℕ) (tries : ℕ) : Cand :=
  { dep := dp.getD (rng (4 * tries) % dp.length) ""
    dest := ds.getD (rng (4 * tries + 1) % ds.length) ""
    dd := da.getD (rng (4 * tries + 2) % da.length) 0
    rd := retDate (da.getD (rng (4 * tries + 2) % da.length) 0)
      (du.getD (rng (4 * tries + 3) % du.length) 0) }

def randLoop (dp ds : List String) (da du : List ℤ) (rng : ℕ → ℕ) (qRand : ℕ) :
    ℕ → ℕ → ℕ → List Cand → List Cand × ℕ × ℕ
  | 0, added, tries, picked => (picked, added, tries)
  | fuel + 1, added, tries, picked =>
    if qRand ≤ added then (picked, added, tries)
    else if dp = [] ∨ ds = [] ∨ da = [] ∨ du = [] then (picked, added, tries + 1)
    else
      if randDraw dp ds da du rng tries ∈ picked then
        randLoop dp ds da du rng qRand fuel added (tries + 1) picked
      else
        randLoop dp ds da du rng qRand fuel (added + 1) (tries + 1)
          (picked ++ [randDraw dp ds da du rng tries])

/-- Final deduplication and cap: walk the picked list, keep first
occurrences, and stop as soon as q entries are kept (the source appends and
then breaks once the output length reaches q, so a q of zero still lets one
candidate through). -/
def dedupCapGo (q : ℕ) (out : List Cand) : List Cand → List Cand
  | [] => out
  | c :: cs =>
    if c ∈ out then dedupCapGo q out cs
    else if q ≤ out.length + 1 then out ++ [c]
    else dedupCapGo q (out ++ [c]) cs

def dedupCap (q : ℕ) (l : List Cand) : List Cand := dedupCapGo q [] l

/-- The full batch proposer, with the final list, the number of random-floor
additions and the number of random-floor tries: Thompson picks, then
surrogate picks, then the random floor with quota max(1, int(q * frac)),
then deduplication capped at q. -/
def proposeBatchDetail (oracle : Archive → SurFit) (tsSample : Cand → ℚ) (rng : ℕ → ℕ)
    (arch : Archive) (depsPool destsPool : List String) (datesPool durations : List ℤ)
    (q : ℕ) (frac : ℚ) (beamK : ℕ) : List Cand × ℕ × ℕ :=
  let picked1 := tsStage tsSample arch q ++
    surStage oracle arch depsPool destsPool datesPool durations q beamK
  let qRand := max 1 (pyIntToNat ((q : ℚ) * frac))
  let r := randLoop depsPool destsPool datesPool durations rng qRand (qRand * 20) 0 0 picked1
  (dedupCap q r.1, r.2.1, r.2.2)

/-- The list the proposer returns. -/
def proposeBatch (oracle : Archive → SurFit) (tsSample : Cand → ℚ) (rng : ℕ → ℕ)
    (arch : Archive) (depsPool destsPool : List String) (datesPool durations : List ℤ)
    (q : ℕ) (frac : ℚ) (beamK : ℕ) : List Cand :=
  (proposeBatchDetail oracle tsSample rng arch depsPool destsPool datesPool durations
    q frac beamK).1

/-! ### Generic lemmas about decay -/

theorem archiveDecay_find (arch : Archive) (today : ℤ) (k : Cand) :
    assocFind (archiveDecay arch today).stats k
      = (assocFind arch.stats k).map (decayEntry arch.gamma today) := by
  unfold archiveDecay
  exact assocFind_mapVal (decayEntry arch.gamma today) arch.stats k

theorem decayEntry_of_le (gamma : ℚ) (today : ℤ) (s : ArmStats) (h : today ≤ s.last) :
    decayEntry gamma today s = s := by
  unfold decayEntry
  simp only []
  rw [if_pos (by omega)]

theorem decayEntry_idem (gamma : ℚ) (today : ℤ) (s : ArmStats) :
    decayEntry gamma today (decayEntry gamma today s) = decayEntry gamma today s := by
  by_cases h : today - s.last ≤ 0
  · unfold decayEntry
    simp only []
    rw [if_pos h, if_pos h]
  · have h1 : decayEntry gamma today s =
        { mu := s.mu * gamma ^ (today - s.last).toNat,
          var := s.var * gamma ^ (today - s.last).toNat,
          n := s.n * gamma ^ (today - s.last).toNat, last := today } := by
      unfold decayEntry
      simp only []
      rw [if_neg h]
    rw [h1]
    unfold decayEntry
    simp only []
    rw [if_pos (by omega)]

/-- Claim C8.  For every archive and every day, a second decay pass for the
same day returns the archive exactly as the first pass left it: after the
first pass every record either already carried a last-update day at or past
today (and was untouched) or now carries exactly today, so the second pass
finds no positive elapsed span anywhere. -/
theorem decay_idempotent (arch : Archive) (today : ℤ) :
    archiveDecay (archiveDecay arch today) today = archiveDecay arch today := by
  unfold archiveDecay
  simp only [List.map_map]
  congr 1
  apply List.map_congr_left
  intro kv _
  simp only [Function.comp]
  rw [decayEntry_idem]

/-- Claim C4 (confirmed).  Decay leaves every record whose last update is at
or past today unchanged, and scales the mean, variance and weight of every
record that is d = today - last >= 1 days stale by gamma to the d, stamping
it with today. -/
theorem decay_scales_stale_arms (arch : Archive) (today : ℤ) (k : Cand) (s : ArmStats)
    (h : assocFind arch.stats k = some s) :
    (today ≤ s.last → assocFind (archiveDecay arch today).stats k = some s) ∧
    (s.last < today → assocFind (archiveDecay arch today).stats k =
      some { mu := s.mu * arch.gamma ^ (today - s.last).toNat,
             var := s.var * arch.gamma ^ (today - s.last).toNat,
             n := s.n * arch.gamma ^ (today - s.last).toNat,
             last := today }) := by
  constructor
  · intro hle
    rw [archiveDecay_find, h, Option.map_some', decayEntry_of_le arch.gamma today s hle]
  · intro hlt
    rw [archiveDecay_find, h, Option.map_some']
    unfold decayEntry
    simp only []
    rw [if_neg (by omega)]

/-- Witness for claim C4, the scenario of the spec: a two-day-stale arm with
mean 200, variance 1, weight 5 under gamma 0.9 decays to mean 162, variance
0.81, weight 4.05. -/
theorem decay_scales_stale_arms_witness :
    assocFind (archiveDecay
      { gamma := 9/10, lastBootTs := none,
        stats := [({ dep := "X", dest := "Y", dd := 3, rd := 5 },
                   { mu := 200, var := 1, n := 5, last := 0 })] } 2).stats
      { dep := "X", dest := "Y", dd := 3, rd := 5 }
      = some { mu := 162, var := 81/100, n := 81/20, last := 2 } := by
  have h := (decay_scales_stale_arms
    { gamma := 9/10, lastBootTs := none,
      stats := [({ dep := "X", dest := "Y", dd := 3, rd := 5 },
                 { mu := 200, var := 1, n := 5, last := 0 })] } 2
    { dep := "X", dest := "Y", dd := 3, rd := 5 }
    { mu := 200, var := 1, n := 5, last := 0 }
    (by simp [assocFind])).2 (by norm_num)
  rw [h]
  norm_num [ArmStats.mk.injEq, show ((2:ℤ)).toNat = 2 from rfl]

/-- Claim C3 (confirmed).  Ingesting a price y for an arm whose record
already carries the given day as its last-update day first runs the (here
vacuous for that arm) decay pass and then applies the discounted EWMA blend:
new mean gamma*mu + (1-gamma)*y, new variance floored at 1e-6, new weight
gamma*n + 1. -/
theorem add_observation_same_day_update (arch : Archive) (k : Cand) (s : ArmStats) (y : ℚ)
    (today : ℤ) (h : assocFind arch.stats k = some s) (hd : s.last = today) :
    assocFind (archiveAddObservation arch k y today).stats k =
      some { mu := arch.gamma * s.mu + (1 - arch.gamma) * y,
             var := max varFloor (arch.gamma * s.var +
               (1 - arch.gamma) * (y - (arch.gamma * s.mu + (1 - arch.gamma) * y)) ^ 2),
             n := arch.gamma * s.n + 1, last := today } := by
  have hdec : assocFind (archiveDecay arch today).stats k = some s := by
    rw [archiveDecay_find, h, Option.map_some', decayEntry_of_le arch.gamma today s (by omega)]
  simp only [archiveAddObservation]
  rw [hdec]
  simp only [Option.getD_some]
  rw [assocFind_assocSet_self]

/-- Witness for claim C3, the scenario of the spec: arm LON-PAR with mean
100, variance 1, weight 10 and a same-day observation of 80 under gamma 0.98
moves to mean 99.6 and weight 10.8 (variance 8.6632, above the floor). -/
theorem add_observation_same_day_update_witness :
    assocFind (archiveAddObservation
      { gamma := 49/50, lastBootTs := none,
        stats := [({ dep := "LON", dest := "PAR", dd := 0, rd := 7 },
                   { mu := 100, var := 1, n := 10, last := 5 })] }
      { dep := "LON", dest := "PAR", dd := 0, rd := 7 } 80 5).stats
      { dep := "LON", dest := "PAR", dd := 0, rd := 7 }
      = some { mu := 498/5, var := 10829/1250, n := 54/5, last := 5 } := by
  have h := add_observation_same_day_update
    { gamma := 49/50, lastBootTs := none,
      stats := [({ dep := "LON", dest := "PAR", dd := 0, rd := 7 },
                 { mu := 100, var := 1, n := 10, last := 5 })] }
    { dep := "LON", dest := "PAR", dd := 0, rd := 7 }
    { mu := 100, var := 1, n := 10, last := 5 } 80 5
    (by simp [assocFind]) rfl
  rw [h]
  rw [show max varFloor ((49/50 : ℚ) * 1 +
    (1 - 49/50) * (80 - (49/50 * 100 + (1 - 49/50) * 80)) ^ 2) = 10829/1250 by
      rw [max_eq_right (by norm_num [varFloor])]; norm_num]
  norm_num [ArmStats.mk.injEq]

/-- Counterexample to claim C2 as stated: ingesting price 100 for a brand
new arm into an empty archive with gamma 0.98 leaves the arm with weight
1.98 and variance 0.98, not weight 1 and variance 1 — the fresh-arm seed
(mean price, variance 1, weight 1) is immediately passed through the EWMA
blend before being stored. -/
theorem add_observation_new_arm_not_unit :
    (assocFind (archiveAddObservation { gamma := 49/50, lastBootTs := none, stats := [] }
        { dep := "A", dest := "B", dd := 0, rd := 7 } 100 0).stats
        { dep := "A", dest := "B", dd := 0, rd := 7 }).map ArmStats.n = some (99/50) ∧
    (assocFind (archiveAddObservation { gamma := 49/50, lastBootTs := none, stats := [] }
        { dep := "A", dest := "B", dd := 0, rd := 7 } 100 0).stats
        { dep := "A", dest := "B", dd := 0, rd := 7 }).map ArmStats.var = some (49/50) ∧
    ((99 : ℚ)/50 ≠ 1) ∧ ((49 : ℚ)/50 ≠ 1) := by
  refine ⟨?_, ?_, by norm_num, by norm_num⟩ <;>
    norm_num [archiveAddObservation, archiveDecay, assocFind, assocSet, varFloor]

/-- Claim C2, amended: ingesting price y for an arm with no existing record
stores mean y, variance max(1e-6, gamma) and weight gamma + 1 — the seed
(y, 1, 1) passed through one EWMA blend. -/
theorem add_observation_new_arm_blended (arch : Archive) (k : Cand) (y : ℚ) (today : ℤ)
    (h : assocFind arch.stats k = none) :
    assocFind (archiveAddObservation arch k y today).stats k =
      some { mu := y, var := max varFloor arch.gamma, n := arch.gamma + 1, last := today } := by
  have hdec : assocFind (archiveDecay arch today).stats k = none := by
    rw [archiveDecay_find, h, Option.map_none']
  simp only [archiveAddObservation]
  rw [hdec]
  simp only [Option.getD_none]
  rw [assocFind_assocSet_self]
  congr 1
  have hmu : arch.gamma * y + (1 - arch.gamma) * y = y := by ring
  have hvar : arch.gamma * 1 +
      (1 - arch.gamma) * (y - (arch.gamma * y + (1 - arch.gamma) * y)) ^ 2 = arch.gamma := by
    ring
  have hn : arch.gamma * 1 + 1 = arch.gamma + 1 := by ring
  rw [ArmStats.mk.injEq]
  exact ⟨hmu, by rw [hvar], hn, rfl⟩

/-- Witness for the amended claim C2 at a concrete input: the new arm ends
with mean 100, variance 0.98 and weight 1.98. -/
theorem add_observation_new_arm_blended_witness :
    assocFind (archiveAddObservation { gamma := 24/25, lastBootTs := none, stats := [] }
        { dep := "NYC", dest := "LAX", dd := 1, rd := 8 } 100 3).stats
        { dep := "NYC", dest := "LAX", dd := 1, rd := 8 }
      = some { mu := 100, var := 24/25, n := 49/25, last := 3 } := by
  have h := add_observation_new_arm_blended
    { gamma := 24/25, lastBootTs := none, stats := [] }
    { dep := "NYC", dest := "LAX", dd := 1, rd := 8 } 100 3 rfl
  rw [h]
  rw [show max varFloor ((24:ℚ)/25) = 24/25 from max_eq_right (by norm_num [varFloor])]
  norm_num [ArmStats.mk.injEq]

/-! ### The weight invariant along decay/ingestion traces -/

/-- The inductive invariant that makes the weight claims go through: gamma
stays in (0,1) and every stored weight n satisfies 0 <= n and
n * (1 - gamma) < 1 (that is, n is below the EWMA fixed point
1 / (1 - gamma), so one more blended observation still raises it). -/
def WInv (a : Archive) : Prop :=
  0 < a.gamma ∧ a.gamma < 1 ∧ ∀ kv ∈ a.stats, 0 ≤ kv.2.n ∧ kv.2.n * (1 - a.gamma) < 1

theorem winv_decay (a : Archive) (today : ℤ) (h : WInv a) : WInv (archiveDecay a today) := by
  rcases h with ⟨h0, h1, hs⟩
  refine ⟨h0, h1, ?_⟩
  intro kv hkv
  have hgam : (archiveDecay a today).gamma = a.gamma := rfl
  rw [hgam]
  simp only [archiveDecay, List.mem_map] at hkv
  rcases hkv with ⟨kv0, hk0, hk1⟩
  rcases hs kv0 hk0 with ⟨hn0, hn1⟩
  rw [← hk1]
  unfold decayEntry
  simp only []
  by_cases hdelta : today - kv0.2.last ≤ 0
  · rw [if_pos hdelta]
    exact ⟨hn0, hn1⟩
  · rw [if_neg hdelta]
    simp only []
    have hpow0 : 0 ≤ a.gamma ^ (today - kv0.2.last).toNat := pow_nonneg (le_of_lt h0) _
    have hpow1 : a.gamma ^ (today - kv0.2.last).toNat ≤ 1 :=
      pow_le_one₀ (le_of_lt h0) (le_of_lt h1)
    constructor
    · exact mul_nonneg hn0 hpow0
    · have hle : kv0.2.n * a.gamma ^ (today - kv0.2.last).toNat ≤ kv0.2.n := by
        nlinarith
      nlinarith

theorem blend_n_bound (g np : ℚ) (h0 : 0 < g) (_h1 : g < 1) (hn0 : 0 ≤ np)
    (hn1 : np * (1 - g) < 1) : 0 ≤ g * np + 1 ∧ (g * np + 1) * (1 - g) < 1 := by
  constructor
  · nlinarith
  · nlinarith

theorem winv_addObs (a : Archive) (k : Cand) (y : ℚ) (t : ℤ) (h : WInv a) :
    WInv (archiveAddObservation a k y t) := by
  have hd := winv_decay a t h
  rcases h with ⟨h0, h1, _⟩
  have hs : 0 ≤ ((assocFind (archiveDecay a t).stats k).getD
        { mu := y, var := 1, n := 1, last := t }).n ∧
      ((assocFind (archiveDecay a t).stats k).getD
        { mu := y, var := 1, n := 1, last := t }).n * (1 - a.gamma) < 1 := by
    cases heq : assocFind (archiveDecay a t).stats k with
    | none =>
      simp only [heq, Option.getD_none]
      constructor
      · norm_num
      · nlinarith
    | some s0 =>
      simp only [heq, Option.getD_some]
      have hmem := assocFind_eq_some_mem (archiveDecay a t).stats k s0 heq
      exact hd.2.2 (k, s0) hmem
  refine ⟨h0, h1, ?_⟩
  intro kv hkv
  simp only [archiveAddObservation] at hkv
  rcases mem_assocSet _ _ _ _ hkv with he | hm
  · rw [he]
    simp only []
    exact blend_n_bound a.gamma _ h0 h1 hs.1 hs.2
  · exact hd.2.2 kv hm

theorem winv_foldl (ops : List ArchOp) : ∀ a : Archive, WInv a → WInv (ops.foldl applyOp a) := by
  induction ops with
  | nil => intro a h; exact h
  | cons op rest ih =>
    intro a h
    simp only [List.foldl_cons]
    apply ih
    cases op with
    | decayOp t => exact winv_decay a t h
    | obsOp k y t => exact winv_addObs a k y t h

theorem winv_runOps (g : ℚ) (h0 : 0 < g) (h1 : g < 1) (ops : List ArchOp) :
    WInv (runOps g ops) := by
  apply winv_foldl
  exact ⟨h0, h1, by intro kv hkv; simp [emptyArchive] at hkv⟩

theorem getD_n_eq (o : Option ArmStats) (s1 s2 : ArmStats) (h : s1.n = s2.n) :
    (o.getD s1).n = (o.getD s2).n := by
  cases o <;> simp [h]

/-- The stored weight right after an ingestion is the discount of the
pre-blend weight plus one unit of fresh weight. -/
theorem armWeight_addObs (a : Archive) (k : Cand) (y : ℚ) (t : ℤ) :
    armWeight (archiveAddObservation a k y t) k
      = a.gamma * preBlendWeight (archiveDecay a t) k + 1 := by
  simp only [archiveAddObservation, armWeight, preBlendWeight]
  rw [assocFind_assocSet_self]
  simp only [Option.getD_some]
  rw [getD_n_eq (assocFind (archiveDecay a t).stats k)
    { mu := y, var := 1, n := 1, last := t } { mu := 0, var := 1, n := 1, last := 0 } rfl]

/-- Claim C7 (confirmed).  Along every finite decay/ingestion trace from the
empty archive with gamma in (0,1): every stored weight is non-negative, and
any further ingestion leaves the touched arm strictly heavier than its
weight immediately before the blend (its post-decay stored weight, or the
fresh-arm seed weight 1). -/
theorem weight_nonneg_and_obs_increases (g : ℚ) (h0 : 0 < g) (h1 : g < 1)
    (ops : List ArchOp) :
    (∀ k s, assocFind (runOps g ops).stats k = some s → 0 ≤ s.n) ∧
    (∀ k y t, preBlendWeight (archiveDecay (runOps g ops) t) k
        < armWeight (archiveAddObservation (runOps g ops) k y t) k) := by
  have hw := winv_runOps g h0 h1 ops
  constructor
  · intro k s hs
    exact (hw.2.2 (k, s) (assocFind_eq_some_mem _ _ _ hs)).1
  · intro k y t
    have hwd := winv_decay (runOps g ops) t hw
    rw [armWeight_addObs]
    have hg0 := hw.1
    have hbound : 0 ≤ preBlendWeight (archiveDecay (runOps g ops) t) k ∧
        preBlendWeight (archiveDecay (runOps g ops) t) k * (1 - (runOps g ops).gamma) < 1 := by
      unfold preBlendWeight
      cases heq : assocFind (archiveDecay (runOps g ops) t).stats k with
      | none =>
        simp only [Option.getD_none]
        have := hw.2.1
        constructor
        · norm_num
        · nlinarith
      | some s0 =>
        simp only [Option.getD_some]
        have harch : (archiveDecay (runOps g ops) t).gamma = (runOps g ops).gamma := rfl
        have := hwd.2.2 (k, s0) (assocFind_eq_some_mem _ _ _ heq)
        rw [harch] at this
        exact this
    nlinarith [hbound.1, hbound.2, hw.1, hw.2.1]

/-- Witness for claim C7 at a concrete trace: after one ingestion with gamma
one half, the stored weight is non-negative and a further ingestion would
strictly raise the pre-blend weight. -/
theorem weight_nonneg_and_obs_increases_witness :
    (0 : ℚ) < 1/2 ∧ (1/2 : ℚ) < 1 ∧
    (∀ k s, assocFind (runOps (1/2)
        [ArchOp.obsOp { dep := "A", dest := "B", dd := 0, rd := 7 } 100 0]).stats k
        = some s → 0 ≤ s.n) ∧
    (∀ k y t, preBlendWeight (archiveDecay (runOps (1/2)
        [ArchOp.obsOp { dep := "A", dest := "B", dd := 0, rd := 7 } 100 0]) t) k
        < armWeight (archiveAddObservation (runOps (1/2)
        [ArchOp.obsOp { dep := "A", dest := "B", dd := 0, rd := 7 } 100 0]) k y t) k) := by
  have h := weight_nonneg_and_obs_increases (1/2) (by norm_num) (by norm_num)
    [ArchOp.obsOp { dep := "A", dest := "B", dd := 0, rd := 7 } 100 0]
  exact ⟨by norm_num, by norm_num, h.1, h.2⟩

/-! ### Lemmas for the bootstrap claims -/

theorem getLast_option_mem {α : Type} : ∀ (l : List α) (a : α), l.getLast? = some a → a ∈ l := by
  intro l
  induction l with
  | nil => intro a h; simp at h
  | cons b t ih =>
    intro a h
    cases t with
    | nil => simp at h; simp [h]
    | cons c t2 =>
      rw [List.getLast?_cons_cons] at h
      exact List.mem_cons_of_mem b (ih a h)

theorem pairwise_rel_getLast {α : Type} {R : α → α → Prop} :
    ∀ (l : List α) (y : α), l.Pairwise R → l.getLast? = some y →
      ∀ x ∈ l, R x y ∨ x = y := by
  intro l
  induction l with
  | nil => intro y _ h; simp at h
  | cons a t ih =>
    intro y hp hl x hx
    cases t with
    | nil =>
      simp at hl hx
      right
      rw [hx, hl]
    | cons b t2 =>
      rw [List.getLast?_cons_cons] at hl
      rcases List.mem_cons.mp hx with hxa | hxt
      · left
        rw [hxa]
        exact (List.pairwise_cons.mp hp).1 y (getLast_option_mem _ y hl)
      · exact ih y (List.pairwise_cons.mp hp).2 hl x hxt

theorem mem_bootSorted_iff (arch : Archive) (records : List BootRecord) (r : BootRecord) :
    r ∈ bootSorted arch records ↔ r ∈ bootRows arch records :=
  (List.perm_insertionSort recLe (bootRows arch records)).mem_iff

theorem bootSorted_le_getLast (arch : Archive) (records : List BootRecord) (lastR : BootRecord)
    (h : (bootSorted arch records).getLast? = some lastR) :
    ∀ r ∈ bootSorted arch records, tsLe r.ts lastR.ts := by
  have hp : (bootSorted arch records).Pairwise recLe :=
    List.sorted_insertionSort recLe (bootRows arch records)
  intro r hr
  rcases pairwise_rel_getLast _ lastR hp h r hr with h1 | h1
  · exact h1
  · rw [h1]
    exact tsLe_refl _

theorem foldl_addObs_lastBootTs (l : List BootRecord) : ∀ a : Archive,
    (l.foldl (fun a r =>
      archiveAddObservation a { dep := r.dep, dest := r.dest, dd := r.dd, rd := r.rd }
        r.price r.tsDay) a).lastBootTs = a.lastBootTs := by
  induction l with
  | nil => intro a; rfl
  | cons r t ih =>
    intro a
    rw [List.foldl_cons, ih]
    rfl

theorem archiveBootstrap_of_rows_nil (a : Archive) (records : List BootRecord)
    (h : bootRows a records = []) : archiveBootstrap a records = a := by
  unfold archiveBootstrap
  rw [if_pos h]

/-- The watermark the bootstrap leaves behind when it replayed something:
the timestamp of the last row in replay order. -/
theorem archiveBootstrap_wm (arch : Archive) (records : List BootRecord)
    (lastR : BootRecord) (hne : bootRows arch records ≠ [])
    (hl : (bootSorted arch records).getLast? = some lastR) :
    (archiveBootstrap arch records).lastBootTs = some lastR.ts := by
  unfold archiveBootstrap
  rw [if_neg hne]
  simp only [hl]

/-- Claim C9 (confirmed).  The bootstrap replays exactly the records
strictly newer than the stored watermark (every replayed row beats a present
watermark), advances the watermark to the newest replayed timestamp when
anything was replayed, and a second run over the same log is a no-op. -/
theorem bootstrap_incremental_idempotent (arch : Archive) (records : List BootRecord) :
    (∀ r ∈ bootSorted arch records, ∀ t, arch.lastBootTs = some t → tsLt t r.ts) ∧
    (bootRows arch records ≠ [] →
      ∃ tmax, (archiveBootstrap arch records).lastBootTs = some tmax ∧
        (∃ r ∈ bootSorted arch records, r.ts = tmax) ∧
        (∀ r ∈ bootSorted arch records, tsLe r.ts tmax)) ∧
    archiveBootstrap (archiveBootstrap arch records) records
      = archiveBootstrap arch records := by
  have hnewer : ∀ r ∈ bootSorted arch records, ∀ t, arch.lastBootTs = some t → tsLt t r.ts := by
    intro r hr t ht
    have hrow := (mem_bootSorted_iff arch records r).mp hr
    have := (List.mem_filter.mp hrow).2
    rw [ht] at this
    exact ((eligibleRec_some_iff t r).mp this).1
  refine ⟨hnewer, ?_, ?_⟩
  all_goals by_cases hne : bootRows arch records = []
  · intro h; exact absurd hne h
  · intro _
    have hsne : bootSorted arch records ≠ [] := by
      intro hcon
      apply hne
      have hperm : (bootRows arch records).Perm (bootSorted arch records) :=
        (List.perm_insertionSort recLe (bootRows arch records)).symm
      rw [hcon] at hperm
      exact hperm.eq_nil
    cases hl : (bootSorted arch records).getLast? with
    | none => exact absurd (List.getLast?_eq_none_iff.mp hl) hsne
    | some lastR =>
      refine ⟨lastR.ts, archiveBootstrap_wm arch records lastR hne hl, ?_, ?_⟩
      · exact ⟨lastR, getLast_option_mem _ lastR hl, rfl⟩
      · exact bootSorted_le_getLast arch records lastR hl
  · have h1 : archiveBootstrap arch records = arch := archiveBootstrap_of_rows_nil arch records hne
    rw [h1]
    exact h1
  · have hsne : bootSorted arch records ≠ [] := by
      intro hcon
      apply hne
      have hperm : (bootRows arch records).Perm (bootSorted arch records) :=
        (List.perm_insertionSort recLe (bootRows arch records)).symm
      rw [hcon] at hperm
      exact hperm.eq_nil
    cases hl : (bootSorted arch records).getLast? with
    | none => exact absurd (List.getLast?_eq_none_iff.mp hl) hsne
    | some lastR =>
      have hwm : (archiveBootstrap arch records).lastBootTs = some lastR.ts :=
        archiveBootstrap_wm arch records lastR hne hl
      have hrows2 : bootRows (archiveBootstrap arch records) records = [] := by
        apply List.filter_eq_nil_iff.mpr
        intro r hrmem
        rw [hwm]
        intro hcon
        rcases (eligibleRec_some_iff lastR.ts r).mp hcon with ⟨hlt, hpr⟩
        by_cases hel : eligibleRec arch.lastBootTs r = true
        · have hr1 : r ∈ bootSorted arch records :=
            (mem_bootSorted_iff arch records r).mpr (List.mem_filter.mpr ⟨hrmem, hel⟩)
          exact not_tsLt_of_tsLe (bootSorted_le_getLast arch records lastR hl r hr1) hlt
        · cases hwm0 : arch.lastBootTs with
          | none =>
            rw [hwm0] at hel
            exact hel ((eligibleRec_none_iff r).mpr hpr)
          | some t0 =>
            rw [hwm0] at hel
            have hnlt : ¬ tsLt t0 r.ts := by
              intro hc
              exact hel ((eligibleRec_some_iff t0 r).mpr ⟨hc, hpr⟩)
            have hlast : tsLt t0 lastR.ts :=
              hnewer lastR (getLast_option_mem _ lastR hl) t0 hwm0
            exact hnlt (tsLt_trans hlast hlt)
      exact archiveBootstrap_of_rows_nil _ _ hrows2

/-- Witness for claim C9 at a concrete input: a fresh archive and a
one-record log; the record is eligible and a second bootstrap run is a
no-op. -/
theorem bootstrap_incremental_idempotent_witness :
    bootRows { gamma := 49/50, lastBootTs := none, stats := [] }
      [{ tsDay := 0, tsHour := 5, dep := "A", dest := "B", dd := 10, rd := 17,
         price := 100 }] ≠ [] ∧
    archiveBootstrap (archiveBootstrap { gamma := 49/50, lastBootTs := none, stats := [] }
        [{ tsDay := 0, tsHour := 5, dep := "A", dest := "B", dd := 10, rd := 17,
           price := 100 }])
        [{ tsDay := 0, tsHour := 5, dep := "A", dest := "B", dd := 10, rd := 17,
           price := 100 }]
      = archiveBootstrap { gamma := 49/50, lastBootTs := none, stats := [] }
        [{ tsDay := 0, tsHour := 5, dep := "A", dest := "B", dd := 10, rd := 17,
           price := 100 }] := by
  constructor
  · norm_num [bootRows, List.filter_cons, eligibleRec]
  · exact (bootstrap_incremental_idempotent
      { gamma := 49/50, lastBootTs := none, stats := [] }
      [{ tsDay := 0, tsHour := 5, dep := "A", dest := "B", dd := 10, rd := 17,
         price := 100 }]).2.2

/-! ### The archive loader over raw JSON values
(source: gui.py, method archive-load, lines 1728-1760) -/

/-- A parsed JSON value, as json.load hands it to the loader.  By
convention, a string on which float() would succeed (a numeric string) is
modelled as jnum carrying its numeric reading, so jstr covers exactly the
strings float() rejects; non-finite float values are outside the model. -/
inductive JVal where
  | jnum (q : ℚ)
  | jstr (s : String)
  | jbool (b : Bool)
  | jnull
  | jarr (l : List JVal)
  | jobj (fields : List (String × JVal))

/-- Python float(x) on a JSON value: numbers and booleans convert, null,
arrays, objects and non-numeric strings raise (modelled as none). -/
def pyFloat : JVal → Option ℚ
  | JVal.jnum q => some q
  | JVal.jbool b => some (if b then 1 else 0)
  | _ => none

/-- The empty archive value the loader falls back to. -/
def defaultArchJ : JVal :=
  JVal.jobj [("gamma", JVal.jnum (49/50)), ("stats", JVal.jobj [])]

/-- Repair of a non-dict stats value: replaced by the empty mapping, dict
stats values are left alone. -/
def fixStats (fields : List (String × JVal)) : List (String × JVal) :=
  match assocFind fields "stats" with
  | some (JVal.jobj _) => fields
  | _ => assocSet fields "stats" (JVal.jobj [])

/-- The archive loader: a missing or unparsable file (none), a non-dict
top level or a dict without a stats key yields the default empty archive;
otherwise the gamma key is checked — absent, or convertible but outside
(0,1), it is overwritten with 0.98; a conversion failure raises inside the
try block, which the except clause turns into the default archive — and a
non-dict stats value is replaced by an empty mapping before the (otherwise
untouched) dict is returned. -/
def archiveLoad (file : Option JVal) : JVal :=
  match file with
  | some (JVal.jobj fields) =>
    if (assocFind fields "stats").isSome then
      match assocFind fields "gamma" with
      | none => JVal.jobj (fixStats (assocSet fields "gamma" (JVal.jnum (49/50))))
      | some g =>
        match pyFloat g with
        | none => defaultArchJ
        | some x =>
          if 0 < x ∧ x < 1 then JVal.jobj (fixStats fields)
          else JVal.jobj (fixStats (assocSet fields "gamma" (JVal.jnum (49/50))))
    else defaultArchJ
  | _ => defaultArchJ

/-- Counterexample to claim C10 as stated: a file that parses as a dict,
has a non-empty stats dict, but carries gamma null (not a number strictly
between 0 and 1) is reset to the empty default archive — the stats mapping
is NOT preserved, because float(None) raises inside the try block. -/
theorem archive_load_bad_gamma_resets :
    archiveLoad (some (JVal.jobj [("stats", JVal.jobj [("K", JVal.jnum 5)]),
        ("gamma", JVal.jnull)])) = defaultArchJ ∧
    assocFind (([("stats", JVal.jobj [("K", JVal.jnum 5)]), ("gamma", JVal.jnull)] :
        List (String × JVal))) "stats" = some (JVal.jobj [("K", JVal.jnum 5)]) ∧
    JVal.jobj [("K", JVal.jnum 5)] ≠ JVal.jobj [] := by
  refine ⟨rfl, rfl, ?_⟩
  intro h
  cases h

theorem fixStats_of_jobj (fields st : List (String × JVal))
    (hst : assocFind fields "stats" = some (JVal.jobj st)) : fixStats fields = fields := by
  unfold fixStats
  rw [hst]

theorem fixStats_set_gamma (fields st : List (String × JVal)) (v : JVal)
    (hst : assocFind fields "stats" = some (JVal.jobj st)) :
    fixStats (assocSet fields "gamma" v) = assocSet fields "gamma" v := by
  unfold fixStats
  rw [assocFind_assocSet_ne _ _ _ _ (by decide), hst]

theorem archiveLoad_obj (fields : List (String × JVal)) :
    archiveLoad (some (JVal.jobj fields)) =
      if (assocFind fields "stats").isSome then
        match assocFind fields "gamma" with
        | none => JVal.jobj (fixStats (assocSet fields "gamma" (JVal.jnum (49/50))))
        | some g =>
          match pyFloat g with
          | none => defaultArchJ
          | some x =>
            if 0 < x ∧ x < 1 then JVal.jobj (fixStats fields)
            else JVal.jobj (fixStats (assocSet fields "gamma" (JVal.jnum (49/50))))
      else defaultArchJ := rfl

/-- Claim C10, amended.  A stored file that parses as a dict with a dict
stats value is returned with its stats (and all other keys) preserved, with
gamma overwritten by the default 0.98 when it is missing or converts to a
float outside the open interval (0,1), and kept when it converts inside the
interval; but a gamma value on which float() raises (null, a non-numeric
string, a list or a dict) resets the whole archive to the empty default,
exactly like an unparsable, stats-less or missing file. -/
theorem archive_load_preserves_stats (fields st : List (String × JVal))
    (hst : assocFind fields "stats" = some (JVal.jobj st)) :
    (assocFind fields "gamma" = none →
      archiveLoad (some (JVal.jobj fields))
        = JVal.jobj (assocSet fields "gamma" (JVal.jnum (49/50)))) ∧
    (∀ g x, assocFind fields "gamma" = some g → pyFloat g = some x →
      (0 < x ∧ x < 1 → archiveLoad (some (JVal.jobj fields)) = JVal.jobj fields) ∧
      (¬(0 < x ∧ x < 1) → archiveLoad (some (JVal.jobj fields))
        = JVal.jobj (assocSet fields "gamma" (JVal.jnum (49/50))))) ∧
    (∀ g, assocFind fields "gamma" = some g → pyFloat g = none →
      archiveLoad (some (JVal.jobj fields)) = defaultArchJ) := by
  refine ⟨?_, ?_, ?_⟩
  · intro hg
    rw [archiveLoad_obj, hst, hg]
    simp only [Option.isSome_some, if_true]
    rw [fixStats_set_gamma fields st _ hst]
  · intro g x hg hx
    constructor
    · intro hin
      rw [archiveLoad_obj, hst, hg]
      simp only [Option.isSome_some, if_true]
      show (match pyFloat g with
        | none => defaultArchJ
        | some x => if 0 < x ∧ x < 1 then JVal.jobj (fixStats fields)
            else JVal.jobj (fixStats (assocSet fields "gamma" (JVal.jnum (49/50))))) = _
      rw [hx]
      show (if 0 < x ∧ x < 1 then JVal.jobj (fixStats fields)
          else JVal.jobj (fixStats (assocSet fields "gamma" (JVal.jnum (49/50))))) = _
      rw [if_pos hin, fixStats_of_jobj fields st hst]
    · intro hout
      rw [archiveLoad_obj, hst, hg]
      simp only [Option.isSome_some, if_true]
      show (match pyFloat g with
        | none => defaultArchJ
        | some x => if 0 < x ∧ x < 1 then JVal.jobj (fixStats fields)
            else JVal.jobj (fixStats (assocSet fields "gamma" (JVal.jnum (49/50))))) = _
      rw [hx]
      show (if 0 < x ∧ x < 1 then JVal.jobj (fixStats fields)
          else JVal.jobj (fixStats (assocSet fields "gamma" (JVal.jnum (49/50))))) = _
      rw [if_neg hout, fixStats_set_gamma fields st _ hst]
  · intro g hg hx
    rw [archiveLoad_obj, hst, hg]
    simp only [Option.isSome_some, if_true]
    show (match pyFloat g with
      | none => defaultArchJ
      | some x => if 0 < x ∧ x < 1 then JVal.jobj (fixStats fields)
          else JVal.jobj (fixStats (assocSet fields "gamma" (JVal.jnum (49/50))))) = _
    rw [hx]

/-- Witness for the amended claim C10: a dict with stats and gamma 2 (a
float outside (0,1)) keeps its stats and gets gamma 0.98. -/
theorem archive_load_preserves_stats_witness :
    archiveLoad (some (JVal.jobj [("stats", JVal.jobj [("K", JVal.jnum 5)]),
        ("gamma", JVal.jnum 2)]))
      = JVal.jobj [("stats", JVal.jobj [("K", JVal.jnum 5)]),
        ("gamma", JVal.jnum (49/50))] := by
  have h := ((archive_load_preserves_stats
      [("stats", JVal.jobj [("K", JVal.jnum 5)]), ("gamma", JVal.jnum 2)]
      [("K", JVal.jnum 5)] rfl).2.1 (JVal.jnum 2) 2 rfl rfl).2 (by norm_num)
  rw [h]
  rfl

/-! ### Lemmas about the final dedup/cap stage -/

theorem dedupCapGo_nodup (q : ℕ) :
    ∀ (l out : List Cand), out.Nodup → (dedupCapGo q out l).Nodup := by
  intro l
  induction l with
  | nil => intro out h; exact h
  | cons c cs ih =>
    intro out h
    unfold dedupCapGo
    split
    next => exact ih out h
    next h1 =>
      have hnd : (out ++ [c]).Nodup := by
        simp [List.nodup_append, h, h1]
      split
      next => exact hnd
      next => exact ih (out ++ [c]) hnd

theorem dedupCapGo_len (q : ℕ) :
    ∀ (l out : List Cand), out.length < q → (dedupCapGo q out l).length ≤ q := by
  intro l
  induction l with
  | nil => intro out h; exact le_of_lt h
  | cons c cs ih =>
    intro out h
    unfold dedupCapGo
    split
    next => exact ih out h
    next =>
      split
      next h2 =>
        simp only [List.length_append, List.length_singleton]
        omega
      next h2 =>
        apply ih
        simp only [List.length_append, List.length_singleton]
        omega

theorem dedupCapGo_subset (q : ℕ) :
    ∀ (l out : List Cand) (x : Cand), x ∈ dedupCapGo q out l → x ∈ out ∨ x ∈ l := by
  intro l
  induction l with
  | nil => intro out x h; exact Or.inl h
  | cons c cs ih =>
    intro out x h
    unfold dedupCapGo at h
    split at h
    next =>
      rcases ih out x h with h1 | h1
      · exact Or.inl h1
      · exact Or.inr (List.mem_cons_of_mem c h1)
    next =>
      split at h
      next =>
        rcases List.mem_append.mp h with h1 | h1
        · exact Or.inl h1
        · exact Or.inr (List.mem_cons.mpr (Or.inl (List.mem_singleton.mp h1)))
      next =>
        rcases ih (out ++ [c]) x h with h1 | h1
        · rcases List.mem_append.mp h1 with h2 | h2
          · exact Or.inl h2
          · exact Or.inr (List.mem_cons.mpr (Or.inl (List.mem_singleton.mp h2)))
        · exact Or.inr (List.mem_cons_of_mem c h1)

/-- Claim C6, amended: the proposed batch never contains two candidates with
the same (departure, destination, outbound, return) tuple, and for every
batch size q of at least one its length is at most q.  (At q = 0 the random
floor still forces one candidate through, the counterexample below.) -/
theorem propose_batch_nodup_and_bounded (oracle : Archive → SurFit) (tsSample : Cand → ℚ)
    (rng : ℕ → ℕ) (arch : Archive) (dp ds : List String) (da du : List ℤ) (q : ℕ)
    (frac : ℚ) (beamK : ℕ) (hq : 1 ≤ q) :
    (proposeBatch oracle tsSample rng arch dp ds da du q frac beamK).Nodup ∧
    (proposeBatch oracle tsSample rng arch dp ds da du q frac beamK).length ≤ q := by
  constructor
  · exact dedupCapGo_nodup q _ [] List.nodup_nil
  · exact dedupCapGo_len q _ [] (by simpa using hq)

/-! ### Lemmas about the random floor loop -/

theorem randLoop_added_le (dp ds : List String) (da du : List ℤ) (rng : ℕ → ℕ) (qRand : ℕ) :
    ∀ (fuel added tries : ℕ) (picked : List Cand), added ≤ qRand →
      (randLoop dp ds da du rng qRand fuel added tries picked).2.1 ≤ qRand := by
  intro fuel
  induction fuel with
  | zero => intro added tries picked h; exact h
  | succ n ih =>
    intro added tries picked h
    unfold randLoop
    split
    next => exact h
    next h1 =>
      split
      next => exact h
      next =>
        split
        next => exact ih added (tries + 1) picked h
        next => exact ih (added + 1) (tries + 1) _ (by omega)

theorem randLoop_exact (dp ds : List String) (da du : List ℤ) (rng : ℕ → ℕ) (qRand : ℕ)
    (hdp : dp ≠ []) (hds : ds ≠ []) (hda : da ≠ []) (hdu : du ≠ []) :
    ∀ (fuel added tries : ℕ) (picked : List Cand), added ≤ qRand →
      (randLoop dp ds da du rng qRand fuel added tries picked).2.1 = qRand ∨
      (randLoop dp ds da du rng qRand fuel added tries picked).2.2 = tries + fuel := by
  intro fuel
  induction fuel with
  | zero =>
    intro added tries picked _
    right
    show tries = tries + 0
    omega
  | succ n ih =>
    intro added tries picked h
    unfold randLoop
    split
    next h1 =>
      left
      show added = qRand
      omega
    next h1 =>
      split
      next h2 =>
        rcases h2 with h2 | h2 | h2 | h2
        · exact absurd h2 hdp
        · exact absurd h2 hds
        · exact absurd h2 hda
        · exact absurd h2 hdu
      next h2 =>
        split
        next =>
          rcases ih added (tries + 1) picked h with h3 | h3
          · exact Or.inl h3
          · right
            rw [h3]
            omega
        next =>
          rcases ih (added + 1) (tries + 1) _ (by omega) with h3 | h3
          · exact Or.inl h3
          · right
            rw [h3]
            omega

/-- Claim C5, amended: the random floor reserves max(1, int(q * frac)) slots
(not the ceiling of q * frac): the loop never adds more than that many
random candidates, and with all pools and the duration list non-empty it
stops only once it has added exactly that many or has used up 20 times that
many tries. -/
theorem random_floor_quota (oracle : Archive → SurFit) (tsSample : Cand → ℚ) (rng : ℕ → ℕ)
    (arch : Archive) (dp ds : List String) (da du : List ℤ) (q : ℕ) (frac : ℚ)
    (beamK : ℕ) :
    (proposeBatchDetail oracle tsSample rng arch dp ds da du q frac beamK).2.1
      ≤ max 1 (pyIntToNat ((q : ℚ) * frac)) ∧
    (dp ≠ [] → ds ≠ [] → da ≠ [] → du ≠ [] →
      ((proposeBatchDetail oracle tsSample rng arch dp ds da du q frac beamK).2.1
          = max 1 (pyIntToNat ((q : ℚ) * frac)) ∨
        (proposeBatchDetail oracle tsSample rng arch dp ds da du q frac beamK).2.2
          = max 1 (pyIntToNat ((q : ℚ) * frac)) * 20)) := by
  constructor
  · exact randLoop_added_le dp ds da du rng _ _ 0 0 _ (Nat.zero_le _)
  · intro h1 h2 h3 h4
    have h := randLoop_exact dp ds da du rng (max 1 (pyIntToNat ((q : ℚ) * frac)))
      h1 h2 h3 h4 (max 1 (pyIntToNat ((q : ℚ) * frac)) * 20) 0 0
      (tsStage tsSample arch q ++ surStage oracle arch dp ds da du q beamK)
      (Nat.zero_le _)
    rcases h with h | h
    · exact Or.inl h
    · right
      have h0 : (0 : ℕ) + max 1 (pyIntToNat ((q : ℚ) * frac)) * 20
          = max 1 (pyIntToNat ((q : ℚ) * frac)) * 20 := by omega
      rw [h0] at h
      exact h

/-! ### Lemmas about the surrogate stage -/

theorem topk_nil_dct {α : Type} [DecidableEq α] (k : ℕ) (pool : List α) :
    topk ([] : List (α × ℚ)) k pool = pool.take k := by
  unfold topk
  rw [if_pos rfl]

theorem fitAdditiveSurrogate_of_empty (oracle : Archive → SurFit) (arch : Archive)
    (hst : arch.stats = []) : fitAdditiveSurrogate oracle arch = ([], [], []) := by
  unfold fitAdditiveSurrogate
  rw [if_pos hst]

theorem mem_beamList (al be : List (String × ℚ)) (ga : List (ℤ × ℚ))
    (stats : List (Cand × ArmStats)) (topDep topDest : List String)
    (topDates durations : List ℤ) (p : ℚ × Cand)
    (hp : p ∈ beamList al be ga stats topDep topDest topDates durations) :
    ∃ d ∈ topDep, ∃ b ∈ topDest, ∃ dd ∈ topDates, ∃ dur ∈ durListOf durations,
      p.2 = { dep := d, dest := b, dd := dd, rd := retDate dd dur } := by
  unfold beamList at hp
  simp only [List.mem_flatMap, List.mem_filterMap] at hp
  obtain ⟨d, hd, b, hb, dd, hdd, dur, hdur, heq⟩ := hp
  refine ⟨d, hd, b, hb, dd, hdd, dur, hdur, ?_⟩
  by_cases hmem : (assocFind stats
      { dep := d, dest := b, dd := dd, rd := retDate dd dur }).isSome
  · rw [if_pos hmem] at heq
    exact absurd heq (by simp)
  · rw [if_neg hmem] at heq
    have := Option.some.inj heq
    rw [← this]

theorem mem_surStage (oracle : Archive → SurFit) (arch : Archive) (dp ds : List String)
    (da du : List ℤ) (q beamK : ℕ) (c : Cand)
    (hc : c ∈ surStage oracle arch dp ds da du q beamK) :
    ∃ p ∈ beamList (fitAdditiveSurrogate oracle arch).1
        (fitAdditiveSurrogate oracle arch).2.1 (fitAdditiveSurrogate oracle arch).2.2
        arch.stats (topk (fitAdditiveSurrogate oracle arch).1 beamK dp)
        (topk (fitAdditiveSurrogate oracle arch).2.1 beamK ds)
        (topk (fitAdditiveSurrogate oracle arch).2.2 beamK da) du, p.2 = c := by
  unfold surStage at hc
  have h1 := List.take_subset _ _ hc
  simp only [List.mem_map] at h1
  obtain ⟨p, hp, hpc⟩ := h1
  refine ⟨p, ?_, hpc⟩
  exact (List.perm_insertionSort pairLe _).mem_iff.mp hp

theorem randLoop_no_durations (dp ds : List String) (da : List ℤ) (rng : ℕ → ℕ)
    (qRand : ℕ) (hq : ¬ qRand = 0) :
    ∀ (fuel : ℕ), 1 ≤ fuel → ∀ (tries : ℕ) (picked : List Cand),
      randLoop dp ds da [] rng qRand fuel 0 tries picked = (picked, 0, tries + 1) := by
  intro fuel hfuel tries picked
  cases fuel with
  | zero => omega
  | succ n =>
    unfold randLoop
    rw [if_neg (by omega), if_pos (by simp)]

/-- Claim C1, amended.  With an empty archive and an empty trip-length list,
the Thompson stage and the random floor contribute nothing (the random loop
breaks at once because the duration pool is empty), so the batch is exactly
the deduplicated, capped surrogate/beam picks, every one of which is a
zero-length trip (return date equal to outbound date) obtained through the
duration fallback; when additionally any of the three pools is empty the
batch is empty.  The call is total, so it cannot raise. -/
theorem propose_batch_empty_arch_no_durations (oracle : Archive → SurFit)
    (tsSample : Cand → ℚ) (rng : ℕ → ℕ) (arch : Archive) (dp ds : List String)
    (da : List ℤ) (q : ℕ) (frac : ℚ) (beamK : ℕ) (hst : arch.stats = []) :
    proposeBatch oracle tsSample rng arch dp ds da [] q frac beamK
      = dedupCap q (surStage oracle arch dp ds da [] q beamK) ∧
    (∀ c ∈ proposeBatch oracle tsSample rng arch dp ds da [] q frac beamK,
      c.rd = c.dd) ∧
    (dp = [] ∨ ds = [] ∨ da = [] →
      proposeBatch oracle tsSample rng arch dp ds da [] q frac beamK = []) := by
  have hts : tsStage tsSample arch q = [] := by
    unfold tsStage
    rw [hst]
    simp [List.insertionSort]
  have hloop := randLoop_no_durations dp ds da rng (max 1 (pyIntToNat ((q : ℚ) * frac)))
    (by have := le_max_left 1 (pyIntToNat ((q : ℚ) * frac)); omega)
    (max 1 (pyIntToNat ((q : ℚ) * frac)) * 20)
    (by have := le_max_left 1 (pyIntToNat ((q : ℚ) * frac)); omega)
    0 (surStage oracle arch dp ds da [] q beamK)
  have h1 : proposeBatch oracle tsSample rng arch dp ds da [] q frac beamK
      = dedupCap q (surStage oracle arch dp ds da [] q beamK) := by
    unfold proposeBatch proposeBatchDetail
    simp only [hts, List.nil_append, hloop]
  refine ⟨h1, ?_, ?_⟩
  · intro c hc
    rw [h1] at hc
    have hc2 : c ∈ surStage oracle arch dp ds da [] q beamK := by
      rcases dedupCapGo_subset q _ [] c hc with h2 | h2
      · exact absurd h2 (List.not_mem_nil c)
      · exact h2
    obtain ⟨p, hp, hpc⟩ := mem_surStage oracle arch dp ds da [] q beamK c hc2
    obtain ⟨d, _, b, _, dd, _, dur, hdur, heq⟩ := mem_beamList _ _ _ _ _ _ _ _ p hp
    have hdur0 : dur = 0 := by
      have : durListOf [] = [0] := by unfold durListOf; rw [if_pos rfl]
      rw [this] at hdur
      simpa using hdur
    rw [← hpc, heq, hdur0]
    simp [retDate]
  · intro hpool
    rw [h1]
    have hsur : surStage oracle arch dp ds da [] q beamK = [] := by
      rw [List.eq_nil_iff_forall_not_mem]
      intro c hc
      obtain ⟨p, hp, _⟩ := mem_surStage oracle arch dp ds da [] q beamK c hc
      obtain ⟨d, hd, b, hb, dd, hdd, _, _, _⟩ := mem_beamList _ _ _ _ _ _ _ _ p hp
      rw [fitAdditiveSurrogate_of_empty oracle arch hst] at hd hb hdd
      rcases hpool with h2 | h2 | h2
      · rw [h2] at hd
        simp [topk_nil_dct] at hd
      · rw [h2] at hb
        simp [topk_nil_dct] at hb
      · rw [h2] at hdd
        simp [topk_nil_dct] at hdd
    rw [hsur]
    rfl

/-- Witness for the amended claim C1 at a concrete input: the empty archive,
singleton pools, no durations. -/
theorem propose_batch_empty_arch_no_durations_witness :
    (({ gamma := 49/50, lastBootTs := none, stats := [] } : Archive).stats = []) ∧
    proposeBatch (fun _ => (([], [], []) : SurFit)) (fun _ => (0 : ℚ)) (fun _ => 0)
        { gamma := 49/50, lastBootTs := none, stats := [] } ["A"] ["B"] [0] [] 4 (1/10) 20
      = dedupCap 4 (surStage (fun _ => (([], [], []) : SurFit))
          { gamma := 49/50, lastBootTs := none, stats := [] } ["A"] ["B"] [0] [] 4 20) ∧
    (∀ c ∈ proposeBatch (fun _ => (([], [], []) : SurFit)) (fun _ => (0 : ℚ)) (fun _ => 0)
        { gamma := 49/50, lastBootTs := none, stats := [] } ["A"] ["B"] [0] [] 4 (1/10) 20,
      c.rd = c.dd) := by
  have h := propose_batch_empty_arch_no_durations (fun _ => (([], [], []) : SurFit))
    (fun _ => (0 : ℚ)) (fun _ => 0) { gamma := 49/50, lastBootTs := none, stats := [] }
    ["A"] ["B"] [0] 4 (1/10) 20 rfl
  exact ⟨rfl, h.1, h.2.1⟩

/-- Counterexample to claim C1 as stated: with the empty archive, non-empty
pools and an empty trip-length list, the returned batch is NOT a list of
random-floor candidates — it consists of a beam/surrogate candidate (the
zero-duration fallback), while the random floor added nothing (the loop
broke on the empty duration pool after one try). -/
theorem propose_batch_empty_not_random_only :
    proposeBatchDetail (fun _ => (([], [], []) : SurFit)) (fun _ => (0 : ℚ)) (fun _ => 0)
        { gamma := 49/50, lastBootTs := none, stats := [] } ["A"] ["B"] [0] [] 4 (1/10) 20
      = ([{ dep := "A", dest := "B", dd := 0, rd := 0 }], 0, 1) ∧
    ([{ dep := "A", dest := "B", dd := 0, rd := 0 }] : List Cand) ≠ [] := by
  have hq3 : pyIntToNat (((4 : ℕ) : ℚ) * (3/10)) = 1 := by
    norm_num [pyIntToNat, pyTrunc, Rat.floor]
  have hq65 : pyIntToNat ((6 : ℚ) / 5) = 1 := by
    norm_num [pyIntToNat, pyTrunc, Rat.floor]
  have hqr : max 1 (pyIntToNat (((4 : ℕ) : ℚ) * (1/10))) = 1 := by
    norm_num [pyIntToNat, pyTrunc, Rat.floor]
  have hts : tsStage (fun _ => (0 : ℚ))
      { gamma := 49/50, lastBootTs := none, stats := [] } 4 = [] := by
    norm_num [tsStage, List.insertionSort]
  have hsur : surStage (fun _ => (([], [], []) : SurFit))
      { gamma := 49/50, lastBootTs := none, stats := [] } ["A"] ["B"] [0] [] 4 20
      = [{ dep := "A", dest := "B", dd := 0, rd := 0 }] := by
    norm_num [surStage, fitAdditiveSurrogate, topk, beamList, durListOf, retDate,
      assocFind, List.flatMap_cons, List.flatMap_nil, List.filterMap_cons,
      List.insertionSort, List.orderedInsert, hq3, hq65]
  have hrand := randLoop_no_durations ["A"] ["B"] [0] (fun _ => 0) 1 (by omega) 20
    (by omega) 0 [{ dep := "A", dest := "B", dd := 0, rd := 0 }]
  constructor
  · unfold proposeBatchDetail
    simp only [hts, List.nil_append, hsur, hqr, one_mul, hrand]
    norm_num [dedupCap, dedupCapGo]
  · simp

/-- Counterexample to claim C6 as stated: at batch size q = 0 the proposer
still returns one candidate (the random floor quota max(1, int(0)) = 1
forces a draw, and the final cap only breaks after appending), so the
length bound at most q fails for q = 0. -/
theorem propose_batch_q_zero_overflow :
    proposeBatch (fun _ => (([], [], []) : SurFit)) (fun _ => (0 : ℚ)) (fun _ => 0)
        { gamma := 49/50, lastBootTs := none, stats := [] } ["A"] ["B"] [0] [1] 0 (1/10) 20
      = [{ dep := "A", dest := "B", dd := 0, rd := 1 }] ∧
    ¬ (([{ dep := "A", dest := "B", dd := 0, rd := 1 }] : List Cand).length ≤ 0) := by
  have hts : tsStage (fun _ => (0 : ℚ))
      { gamma := 49/50, lastBootTs := none, stats := [] } 0 = [] := by
    norm_num [tsStage, List.insertionSort]
  have hq0 : pyIntToNat (((0 : ℕ) : ℚ) * (3/10)) = 0 := by
    norm_num [pyIntToNat, pyTrunc, Rat.floor]
  have hqz : pyIntToNat (0 : ℚ) = 0 := by
    norm_num [pyIntToNat, pyTrunc, Rat.floor]
  have hsur : surStage (fun _ => (([], [], []) : SurFit))
      { gamma := 49/50, lastBootTs := none, stats := [] } ["A"] ["B"] [0] [1] 0 20
      = [] := by
    norm_num [surStage, hq0, hqz]
  have hqr : max 1 (pyIntToNat (((0 : ℕ) : ℚ) * (1/10))) = 1 := by
    norm_num [pyIntToNat, pyTrunc, Rat.floor]
  have hrand : randLoop ["A"] ["B"] [0] [1] (fun _ => 0) 1 20 0 0 []
      = ([{ dep := "A", dest := "B", dd := 0, rd := 1 }], 1, 1) := by decide
  constructor
  · unfold proposeBatch proposeBatchDetail
    simp only [hts, hsur, List.nil_append, hqr, one_mul, hrand]
    norm_num [dedupCap, dedupCapGo]
  · simp

/-- Witness for the amended claim C6 at batch size one. -/
theorem propose_batch_nodup_and_bounded_witness :
    1 ≤ 1 ∧
    (proposeBatch (fun _ => (([], [], []) : SurFit)) (fun _ => (0 : ℚ)) (fun _ => 0)
        { gamma := 49/50, lastBootTs := none, stats := [] } ["A"] ["B"] [0] [1] 1 (1/10)
        20).Nodup ∧
    (proposeBatch (fun _ => (([], [], []) : SurFit)) (fun _ => (0 : ℚ)) (fun _ => 0)
        { gamma := 49/50, lastBootTs := none, stats := [] } ["A"] ["B"] [0] [1] 1 (1/10)
        20).length ≤ 1 := by
  have h := propose_batch_nodup_and_bounded (fun _ => (([], [], []) : SurFit))
    (fun _ => (0 : ℚ)) (fun _ => 0) { gamma := 49/50, lastBootTs := none, stats := [] }
    ["A"] ["B"] [0] [1] 1 (1/10) 20 (le_refl 1)
  exact ⟨le_refl 1, h.1, h.2⟩

/-- Counterexample to claim C5 as stated: with q = 10 and frac = 1/4 the
quota is max(1, int(2.5)) = 2, and the loop stops after adding exactly 2
random candidates (well before the try budget of 40 and with eight fresh
candidates still available in the pools), although the ceiling of
frac * q is 3. -/
theorem random_floor_below_ceil :
    max 1 (pyIntToNat (((10 : ℕ) : ℚ) * (1/4))) = 2 ∧
    (proposeBatchDetail (fun _ => (([], [], []) : SurFit)) (fun _ => (0 : ℚ))
        (fun n => if n % 4 = 2 then n / 4 + 2 else 0)
        { gamma := 49/50, lastBootTs := none, stats := [] } ["A"] ["B"]
        [0, 1, 2, 3, 4, 5, 6, 7, 8, 9] [1] 10 (1/4) 2).2.1 = 2 ∧
    (proposeBatchDetail (fun _ => (([], [], []) : SurFit)) (fun _ => (0 : ℚ))
        (fun n => if n % 4 = 2 then n / 4 + 2 else 0)
        { gamma := 49/50, lastBootTs := none, stats := [] } ["A"] ["B"]
        [0, 1, 2, 3, 4, 5, 6, 7, 8, 9] [1] 10 (1/4) 2).2.2 = 2 ∧
    (2 : ℤ) < ⌈((10 : ℚ) * (1/4))⌉ := by
  have hts : tsStage (fun _ => (0 : ℚ))
      { gamma := 49/50, lastBootTs := none, stats := [] } 10 = [] := by
    norm_num [tsStage, List.insertionSort]
  have hq3 : pyIntToNat (((10 : ℕ) : ℚ) * (3/10)) = 3 := by
    norm_num [pyIntToNat, pyTrunc, Rat.floor, show ((3 : ℤ)).toNat = 3 from rfl]
  have hq3b : pyIntToNat (3 : ℚ) = 3 := by
    norm_num [pyIntToNat, pyTrunc, Rat.floor, show ((3 : ℤ)).toNat = 3 from rfl]
  have hdur : durListOf [1] = [1] := by decide
  have hsur : surStage (fun _ => (([], [], []) : SurFit))
      { gamma := 49/50, lastBootTs := none, stats := [] } ["A"] ["B"]
      [0, 1, 2, 3, 4, 5, 6, 7, 8, 9] [1] 10 2
      = [{ dep := "A", dest := "B", dd := 0, rd := 1 },
         { dep := "A", dest := "B", dd := 1, rd := 2 }] := by
    norm_num [surStage, fitAdditiveSurrogate, topk, beamList, hdur, retDate,
      assocFind, List.flatMap_cons, List.flatMap_nil, List.filterMap_cons,
      List.insertionSort, List.orderedInsert, pairLe, candLt, hq3, hq3b]
  have hqr : max 1 (pyIntToNat (((10 : ℕ) : ℚ) * (1/4))) = 2 := by
    norm_num [pyIntToNat, pyTrunc, Rat.floor, show ((2 : ℤ)).toNat = 2 from rfl]
  have hrand : randLoop ["A"] ["B"] [0, 1, 2, 3, 4, 5, 6, 7, 8, 9] [1]
      (fun n => if n % 4 = 2 then n / 4 + 2 else 0) 2 40 0 0
      [{ dep := "A", dest := "B", dd := 0, rd := 1 },
       { dep := "A", dest := "B", dd := 1, rd := 2 }]
      = ([{ dep := "A", dest := "B", dd := 0, rd := 1 },
          { dep := "A", dest := "B", dd := 1, rd := 2 },
          { dep := "A", dest := "B", dd := 2, rd := 3 },
          { dep := "A", dest := "B", dd := 3, rd := 4 }], 2, 2) := by decide
  refine ⟨hqr, ?_, ?_, ?_⟩
  · unfold proposeBatchDetail
    simp only [hts, hsur, List.nil_append, hqr]
    norm_num [hrand]
  · unfold proposeBatchDetail
    simp only [hts, hsur, List.nil_append, hqr]
    norm_num [hrand]
  · rw [Int.lt_ceil]
    norm_num

/-- Witness for the amended claim C5 at a concrete input with all pools and
the duration list non-empty. -/
theorem random_floor_quota_witness :
    (["A"] : List String) ≠ [] ∧ (["B"] : List String) ≠ [] ∧
    ([0] : List ℤ) ≠ [] ∧ ([1] : List ℤ) ≠ [] ∧
    (proposeBatchDetail (fun _ => (([], [], []) : SurFit)) (fun _ => (0 : ℚ)) (fun _ => 0)
        { gamma := 49/50, lastBootTs := none, stats := [] } ["A"] ["B"] [0] [1] 10 (1/4)
        2).2.1 ≤ max 1 (pyIntToNat (((10 : ℕ) : ℚ) * (1/4))) ∧
    ((proposeBatchDetail (fun _ => (([], [], []) : SurFit)) (fun _ => (0 : ℚ)) (fun _ => 0)
        { gamma := 49/50, lastBootTs := none, stats := [] } ["A"] ["B"] [0] [1] 10 (1/4)
        2).2.1 = max 1 (pyIntToNat (((10 : ℕ) : ℚ) * (1/4))) ∨
      (proposeBatchDetail (fun _ => (([], [], []) : SurFit)) (fun _ => (0 : ℚ)) (fun _ => 0)
        { gamma := 49/50, lastBootTs := none, stats := [] } ["A"] ["B"] [0] [1] 10 (1/4)
        2).2.2 = max 1 (pyIntToNat (((10 : ℕ) : ℚ) * (1/4))) * 20) := by
  have h := random_floor_quota (fun _ => (([], [], []) : SurFit)) (fun _ => (0 : ℚ))
    (fun _ => 0) { gamma := 49/50, lastBootTs := none, stats := [] } ["A"] ["B"] [0] [1]
    10 (1/4) 2
  exact ⟨by simp, by simp, by simp, by simp, h.1,
    h.2 (by simp) (by simp) (by simp) (by simp)⟩
